import Mathlib

/-!
Verification development for the MNIST CNN notebook
(`Chapter09/09.05-Training-a-Deep-Neural-Net-to-Classify-Handwritten-Digits-Using-Keras.ipynb`).

The notebook itself is glue code: it preprocesses MNIST (reshape to
`N × 28 × 28 × 1`, scale by `1/255`), builds a fixed Keras `Sequential`
stack (Conv2D 32@3×3 valid → ReLU → Conv2D 32@3×3 → ReLU → MaxPool 2×2 →
Dropout 0.25 → Flatten → Dense 128 → ReLU → Dropout 0.5 → Dense 10 →
softmax), compiles with categorical cross-entropy and Adadelta, and fits.
The numeric kernels (convolution, softmax, loss, optimizer, shuffling,
dropout, pooling) live in the framework, not in this repository, so they
are modelled here from the specification's component design; the concrete
layer configuration and the preprocessing arithmetic are taken from the
notebook source.  Machine floating point is embedded as exact rational
(or real, where `exp`/`log`/`sqrt` are needed) arithmetic.
-/

namespace MnistCnn

/-- A dense 3-D tensor (height × width × channels) as nested lists of
rationals; the shape is the nesting of list lengths. -/
abbrev Tensor3 := List (List (List ℚ))

/-- Read entry `(i, j, c)` of a 3-D tensor, `0` out of bounds. -/
def tget (t : Tensor3) (i j c : ℕ) : ℚ :=
  ((t.getD i []).getD j []).getD c 0

/-- Modelled from the spec: `Conv2D(filters, kernelSize, padding='valid')`
forward pass (the convolution itself is implemented by the framework, not
by the notebook).  A kernel of shape `k × k × inputChannels` slides over
the spatial dimensions with stride 1; with `valid` padding the output
spatial size is `input − k + 1`; one output channel per filter, each a
bias plus the windowed cross-correlation sum. -/
def conv2dValid (k : ℕ) (kernels : List Tensor3) (biases : List ℚ)
    (input : Tensor3) : Tensor3 :=
  let h := input.length
  let w := (input.getD 0 []).length
  let c := ((input.getD 0 []).getD 0 []).length
  (List.range (h - k + 1)).map fun i =>
    (List.range (w - k + 1)).map fun j =>
      (List.range kernels.length).map fun f =>
        biases.getD f 0 +
        ((List.range k).map fun di =>
          ((List.range k).map fun dj =>
            ((List.range c).map fun ch =>
              tget input (i + di) (j + dj) ch *
                tget (kernels.getD f []) di dj ch).sum).sum).sum

/-- A zero-filled tensor of shape `h × w × c`. -/
def zeros3 (h w c : ℕ) : Tensor3 :=
  List.replicate h (List.replicate w (List.replicate c 0))

lemma conv2dValid_length (k : ℕ) (kernels : List Tensor3) (biases : List ℚ)
    (input : Tensor3) :
    (conv2dValid k kernels biases input).length = input.length - k + 1 := by
  simp [conv2dValid]

lemma conv2dValid_row_length (k : ℕ) (kernels : List Tensor3)
    (biases : List ℚ) (input : Tensor3) :
    ∀ row ∈ conv2dValid k kernels biases input,
      row.length = (input.getD 0 []).length - k + 1 := by
  intro row hrow
  simp only [conv2dValid, List.mem_map, List.mem_range] at hrow
  obtain ⟨i, -, rfl⟩ := hrow
  simp

lemma conv2dValid_pixel_length (k : ℕ) (kernels : List Tensor3)
    (biases : List ℚ) (input : Tensor3) :
    ∀ row ∈ conv2dValid k kernels biases input, ∀ pix ∈ row,
      pix.length = kernels.length := by
  intro row hrow pix hpix
  simp only [conv2dValid, List.mem_map, List.mem_range] at hrow
  obtain ⟨i, -, rfl⟩ := hrow
  simp only [List.mem_map, List.mem_range] at hpix
  obtain ⟨j, -, rfl⟩ := hpix
  simp

lemma zeros3_length (h w c : ℕ) : (zeros3 h w c).length = h := by
  simp [zeros3]

lemma zeros3_getD_length (h w c : ℕ) (hh : 0 < h) :
    ((zeros3 h w c).getD 0 []).length = w := by
  cases h with
  | zero => exact absurd hh (lt_irrefl 0)
  | succ n => simp [zeros3, List.replicate_succ]

lemma getD_zero_mem {α : Type} (l : List α) (d : α) (h : 0 < l.length) :
    l.getD 0 d ∈ l := by
  rw [List.getD_eq_getElem l d h]
  exact List.getElem_mem h

/-- The `28 × 28 × 1` input image shape used by the notebook
(`input_shape = (img_rows, img_cols, 1)` with `img_rows = img_cols = 28`),
instantiated as a zero image. -/
def mnistInput0 : Tensor3 := zeros3 28 28 1

/-- Kernels of the notebook's first `Conv2D(32, (3, 3), padding='valid')`
layer: 32 filters of shape `3 × 3 × 1` (zero-instantiated; only shapes
matter for the shape claims). -/
def convKernels1 : List Tensor3 := List.replicate 32 (zeros3 3 3 1)

/-- Kernels of the notebook's second `Conv2D(32, (3, 3))` layer:
32 filters of shape `3 × 3 × 32`. -/
def convKernels2 : List Tensor3 := List.replicate 32 (zeros3 3 3 32)

/-- Biases of either convolution layer: one per filter. -/
def convBiases : List ℚ := List.replicate 32 0

/-- Output of the first convolution layer on the `28 × 28 × 1` input. -/
def convLayer1Out : Tensor3 := conv2dValid 3 convKernels1 convBiases mnistInput0

/-- Output of the second convolution layer. -/
def convLayer2Out : Tensor3 := conv2dValid 3 convKernels2 convBiases convLayer1Out

lemma convLayer1Out_length : convLayer1Out.length = 26 := by
  rw [convLayer1Out, conv2dValid_length]
  simp [mnistInput0, zeros3]

lemma convLayer1Out_row_length :
    ∀ row ∈ convLayer1Out, row.length = 26 := by
  intro row hrow
  have := conv2dValid_row_length 3 convKernels1 convBiases mnistInput0 row hrow
  rwa [show ((mnistInput0.getD 0 []).length) = 28 from
    zeros3_getD_length 28 28 1 (by norm_num)] at this

lemma convLayer1Out_getD_length : (convLayer1Out.getD 0 []).length = 26 :=
  convLayer1Out_row_length _ (getD_zero_mem _ _ (by rw [convLayer1Out_length]; norm_num))

/-- **C1.** For every valid input shape (spatial extent at least the kernel
size), `conv2dValid` with a `k × k` kernel, stride 1 and `valid` padding
produces an output whose spatial size is the input spatial size minus `k`
plus 1, with one channel per filter; in particular the notebook's two
32-filter `3 × 3` convolutions on a `28 × 28 × 1` input give outputs of
spatial size `26 × 26` and `24 × 24`, each with 32 channels. -/
theorem conv2d_valid_shape (k : ℕ) (kernels : List Tensor3) (biases : List ℚ)
    (input : Tensor3) (hh : k ≤ input.length)
    (hw : k ≤ (input.getD 0 []).length) :
    ((conv2dValid k kernels biases input).length + k = input.length + 1
      ∧ (∀ row ∈ conv2dValid k kernels biases input,
          row.length + k = (input.getD 0 []).length + 1)
      ∧ (∀ row ∈ conv2dValid k kernels biases input, ∀ pix ∈ row,
          pix.length = kernels.length))
    ∧ convLayer1Out.length = 26
    ∧ (∀ row ∈ convLayer1Out, row.length = 26)
    ∧ (∀ row ∈ convLayer1Out, ∀ pix ∈ row, pix.length = 32)
    ∧ convLayer2Out.length = 24
    ∧ (∀ row ∈ convLayer2Out, row.length = 24)
    ∧ (∀ row ∈ convLayer2Out, ∀ pix ∈ row, pix.length = 32) := by
  refine ⟨⟨?_, ?_, conv2dValid_pixel_length k kernels biases input⟩,
    convLayer1Out_length, convLayer1Out_row_length, ?_, ?_, ?_, ?_⟩
  · rw [conv2dValid_length]
    omega
  · intro row hrow
    rw [conv2dValid_row_length k kernels biases input row hrow]
    omega
  · intro row hrow pix hpix
    have := conv2dValid_pixel_length 3 convKernels1 convBiases mnistInput0
      row hrow pix hpix
    simpa [convKernels1] using this
  · rw [convLayer2Out, conv2dValid_length, convLayer1Out_length]
  · intro row hrow
    have := conv2dValid_row_length 3 convKernels2 convBiases convLayer1Out row hrow
    rwa [convLayer1Out_getD_length] at this
  · intro row hrow pix hpix
    have := conv2dValid_pixel_length 3 convKernels2 convBiases convLayer1Out
      row hrow pix hpix
    simpa [convKernels2] using this

/-- Witness for `conv2d_valid_shape` at the notebook's first layer:
kernel 3, 32 filters, `28 × 28 × 1` input. -/
theorem conv2d_valid_shape_witness :
    (3 ≤ mnistInput0.length ∧ 3 ≤ (mnistInput0.getD 0 []).length)
    ∧ (conv2dValid 3 convKernels1 convBiases mnistInput0).length + 3
        = mnistInput0.length + 1 := by
  have h1 : 3 ≤ mnistInput0.length := by simp [mnistInput0, zeros3]
  have h2 : 3 ≤ (mnistInput0.getD 0 []).length := by
    rw [mnistInput0, zeros3_getD_length 28 28 1 (by norm_num)]; norm_num
  exact ⟨⟨h1, h2⟩,
    (conv2d_valid_shape 3 convKernels1 convBiases mnistInput0 h1 h2).1.1⟩

/-- The maximum entry of a row (class axis), used for numerical
stabilization. -/
def rowMax : List ℝ → ℝ
  | [] => 0
  | x :: xs => xs.foldl max x

/-- Modelled from the spec: the `softmax` activation over one row of the
class axis (the activation itself is implemented by the framework):
`softmax(x)_i = exp(x_i − m) / Σ_j exp(x_j − m)` where `m` is the row
maximum subtracted for numerical stabilization. -/
noncomputable def softmaxRow (x : List ℝ) : List ℝ :=
  let e := x.map fun v => Real.exp (v - rowMax x)
  e.map fun v => v / e.sum

/-- Modelled from the spec: softmax applied row-wise over a batch. -/
noncomputable def softmax (t : List (List ℝ)) : List (List ℝ) :=
  t.map softmaxRow

lemma sum_map_div (l : List ℝ) (s : ℝ) :
    (l.map fun v => v / s).sum = l.sum / s := by
  induction l with
  | nil => simp
  | cons a t ih => simp [ih, add_div]

lemma softmaxRow_expSum_pos {x : List ℝ} (hx : x ≠ []) :
    0 < (x.map fun v => Real.exp (v - rowMax x)).sum := by
  refine List.sum_pos _ ?_ ?_
  · intro y hy
    simp only [List.mem_map] at hy
    obtain ⟨v, -, rfl⟩ := hy
    exact Real.exp_pos _
  · simpa using hx

/-- **C2.** For every finite input batch with nonempty rows, the softmax
activation (exp of the stabilized entries divided by the row sum of exps)
returns a tensor in which every entry lies in `[0, 1]` and every row sums
to exactly 1 (the exact-arithmetic form of "within floating tolerance"). -/
theorem softmax_entries_range_rows_sum_one (t : List (List ℝ))
    (hne : ∀ row ∈ t, row ≠ []) :
    ∀ row ∈ softmax t, (∀ v ∈ row, 0 ≤ v ∧ v ≤ 1) ∧ row.sum = 1 := by
  intro row hrow
  simp only [softmax, List.mem_map] at hrow
  obtain ⟨x, hx, rfl⟩ := hrow
  have hxne : x ≠ [] := hne x hx
  set e := x.map fun v => Real.exp (v - rowMax x) with he
  have hspos : 0 < e.sum := softmaxRow_expSum_pos hxne
  have hnonneg : ∀ v ∈ e, 0 ≤ v := by
    intro v hv
    simp only [he, List.mem_map] at hv
    obtain ⟨u, -, rfl⟩ := hv
    exact (Real.exp_pos _).le
  constructor
  · intro v hv
    simp only [softmaxRow, ← he, List.mem_map] at hv
    obtain ⟨u, hu, rfl⟩ := hv
    exact ⟨div_nonneg (hnonneg u hu) hspos.le,
      (div_le_one hspos).2 (List.single_le_sum hnonneg u hu)⟩
  · show (e.map fun v => v / e.sum).sum = 1
    rw [sum_map_div, div_self hspos.ne']

/-- Witness for `softmax_entries_range_rows_sum_one` at the one-row batch
`[[0, 0]]`, whose softmax is `[[1/2, 1/2]]`. -/
theorem softmax_entries_range_rows_sum_one_witness :
    (∀ row ∈ [[(0 : ℝ), 0]], row ≠ []) ∧
      ∀ row ∈ softmax [[(0 : ℝ), 0]],
        (∀ v ∈ row, 0 ≤ v ∧ v ≤ 1) ∧ row.sum = 1 := by
  have h : ∀ row ∈ [[(0 : ℝ), 0]], row ≠ [] := by simp
  exact ⟨h, softmax_entries_range_rows_sum_one [[(0 : ℝ), 0]] h⟩

/-- Modelled from the spec: one-hot encoding of an integer class label as
a vector with 1 at the label's index and 0 elsewhere
(`np_utils.to_categorical` in the notebook). -/
def oneHot : ℕ → ℕ → List ℝ
  | 0, _ => []
  | n + 1, 0 => 1 :: List.replicate n 0
  | n + 1, i + 1 => 0 :: oneHot n i

/-- Modelled from the spec: categorical cross-entropy loss
(`loss='categorical_crossentropy'` in the notebook's `model.compile`):
`−mean over batch of Σ_c target_c * log(prediction_c + ε)`, with `ε`
added for numerical safety. -/
noncomputable def crossEntropy (eps : ℝ) (preds targets : List (List ℝ)) : ℝ :=
  -((List.zipWith
      (fun p t => (List.zipWith (fun tc pc => tc * Real.log (pc + eps)) t p).sum)
      preds targets).sum / preds.length)

lemma oneHot_length : ∀ n i, (oneHot n i).length = n
  | 0, _ => rfl
  | n + 1, 0 => by simp [oneHot]
  | n + 1, i + 1 => by simp [oneHot, oneHot_length n i]

lemma zipWith_zero_mul_sum (f : ℝ → ℝ) : ∀ (n : ℕ) (l : List ℝ),
    (List.zipWith (fun tc pc => tc * f pc) (List.replicate n 0) l).sum = 0
  | 0, _ => by simp
  | _ + 1, [] => by simp
  | n + 1, a :: l => by
      simp [List.replicate_succ, zipWith_zero_mul_sum f n l]

lemma zipWith_oneHot_sum (f : ℝ → ℝ) :
    ∀ (p : List ℝ) (i : ℕ), i < p.length →
      (List.zipWith (fun tc pc => tc * f pc) (oneHot p.length i) p).sum
        = f (p.getD i 0)
  | [], i, h => by simp at h
  | a :: p, 0, _ => by
      simp [oneHot, zipWith_zero_mul_sum f p.length p]
  | a :: p, i + 1, h => by
      have hi : i < p.length := by simpa using h
      simp [oneHot, zipWith_oneHot_sum f p i hi]

lemma getD_mem_of_lt (l : List ℝ) (i : ℕ) (h : i < l.length) :
    l.getD i 0 ∈ l := by
  rw [List.getD_eq_getElem l 0 h]
  exact List.getElem_mem h

lemma oneHot_getD_self : ∀ n i, i < n → (oneHot n i).getD i 0 = 1
  | 0, _, h => absurd h (Nat.not_lt_zero _)
  | _ + 1, 0, _ => by simp [oneHot]
  | n + 1, i + 1, h => by
      have := oneHot_getD_self n i (by omega)
      simpa [oneHot] using this

lemma exists_of_mem_zipWith {α β γ : Type} (f : α → β → γ) :
    ∀ (l₁ : List α) (l₂ : List β) (x : γ), x ∈ List.zipWith f l₁ l₂ →
      ∃ pt ∈ List.zip l₁ l₂, x = f pt.1 pt.2
  | [], _, x, h => by simp at h
  | _ :: _, [], x, h => by simp at h
  | a :: l₁, b :: l₂, x, h => by
      simp only [List.zipWith, List.mem_cons] at h
      rcases h with rfl | h
      · exact ⟨(a, b), by simp [List.zip_cons_cons], rfl⟩
      · obtain ⟨pt, hpt, rfl⟩ := exists_of_mem_zipWith f l₁ l₂ x h
        exact ⟨pt, by simp only [List.zip_cons_cons, List.mem_cons]; exact Or.inr hpt,
          rfl⟩

/-- **C3 (counterexample).** The claim "the loss is non-negative" fails on
the spec's formula: at the perfect one-hot prediction `[1, 0]` matching
the target `[1, 0]`, with `ε = 1/100`, the loss is `−log(1 + ε) < 0`. -/
theorem crossEntropy_negative_at_perfect :
    crossEntropy (1 / 100) [[(1 : ℝ), 0]] [[(1 : ℝ), 0]] < 0 := by
  have hlog : 0 < Real.log (1 + 1 / 100) := Real.log_pos (by norm_num)
  simp only [crossEntropy, List.zipWith, List.sum_cons, List.sum_nil,
    List.length_cons, List.length_nil]
  push_cast
  rw [div_one]
  linarith

/-- **C3 (amended).** For every nonempty batch of predictions with entries
in `[0, 1]` and one-hot targets, the categorical cross-entropy with fuzz
term `ε > 0` is bounded below by `−log(1 + ε)` (not by 0: the claimed
non-negativity fails at a perfect prediction); the bound is attained at a
perfect one-hot prediction matching the target, where the loss is exactly
`−log(1 + ε)`, and `−log(1 + ε) → 0` as `ε → 0`. -/
theorem crossEntropy_lower_bound (eps : ℝ) (heps : 0 < eps)
    (preds targets : List (List ℝ)) (hne : preds ≠ [])
    (hlen : preds.length = targets.length)
    (hrows : ∀ pt ∈ List.zip preds targets,
      (∀ v ∈ pt.1, 0 ≤ v ∧ v ≤ 1) ∧
        ∃ i, i < pt.1.length ∧ pt.2 = oneHot pt.1.length i) :
    (-(Real.log (1 + eps)) ≤ crossEntropy eps preds targets)
    ∧ (∀ n i, i < n →
        crossEntropy eps [oneHot n i] [oneHot n i] = -(Real.log (1 + eps)))
    ∧ Filter.Tendsto (fun e : ℝ => -(Real.log (1 + e))) (nhds 0) (nhds 0) := by
  refine ⟨?_, ?_, ?_⟩
  · set g : List ℝ → List ℝ → ℝ := fun p t =>
      (List.zipWith (fun tc pc => tc * Real.log (pc + eps)) t p).sum with hg
    have hbound : ∀ x ∈ List.zipWith g preds targets, x ≤ Real.log (1 + eps) := by
      intro x hx
      obtain ⟨pt, hpt, rfl⟩ := exists_of_mem_zipWith g preds targets x hx
      obtain ⟨hp01, i, hi, ht⟩ := hrows pt hpt
      have hsum : g pt.1 pt.2 = Real.log (pt.1.getD i 0 + eps) := by
        rw [hg, ht]
        exact zipWith_oneHot_sum (fun pc => Real.log (pc + eps)) pt.1 i hi
      rw [hsum]
      obtain ⟨h0, h1⟩ := hp01 _ (getD_mem_of_lt pt.1 i hi)
      exact Real.log_le_log (by linarith) (by linarith)
    have hsum := List.sum_le_card_nsmul (List.zipWith g preds targets)
      (Real.log (1 + eps)) hbound
    have hlenz : (List.zipWith g preds targets).length = preds.length := by
      rw [List.length_zipWith, hlen, min_self]
    rw [hlenz, nsmul_eq_mul] at hsum
    have hB : (0 : ℝ) < preds.length := by
      have : 0 < preds.length := List.length_pos.2 hne
      exact_mod_cast this
    rw [crossEntropy, neg_le_neg_iff, div_le_iff₀ hB]
    calc (List.zipWith _ preds targets).sum
        ≤ (preds.length : ℝ) * Real.log (1 + eps) := hsum
      _ = Real.log (1 + eps) * (preds.length : ℝ) := mul_comm _ _
  · intro n i hi
    have hlenOH : (oneHot n i).length = n := oneHot_length n i
    have hinner : (List.zipWith (fun tc pc => tc * Real.log (pc + eps))
        (oneHot n i) (oneHot n i)).sum = Real.log ((oneHot n i).getD i 0 + eps) := by
      have := zipWith_oneHot_sum (fun pc => Real.log (pc + eps)) (oneHot n i) i
        (by rw [hlenOH]; exact hi)
      rwa [hlenOH] at this
    rw [crossEntropy]
    simp only [List.zipWith, List.sum_cons, List.sum_nil, List.length_cons,
      List.length_nil, add_zero]
    rw [hinner, oneHot_getD_self n i hi]
    push_cast
    rw [div_one]
  · have h1 : Filter.Tendsto (fun e : ℝ => 1 + e) (nhds 0) (nhds 1) := by
      have hc : Continuous (fun e : ℝ => 1 + e) := continuous_const.add continuous_id
      have := hc.tendsto (0 : ℝ)
      simpa using this
    have h2 := (Real.continuousAt_log one_ne_zero).tendsto.comp h1
    rw [Real.log_one] at h2
    simpa using h2.neg

/-- Witness for `crossEntropy_lower_bound`: batch `[[1, 0]]` with one-hot
target `[[1, 0]] = [oneHot 2 0]` and `ε = 1/2`. -/
theorem crossEntropy_lower_bound_witness :
    -(Real.log (1 + 1 / 2)) ≤ crossEntropy (1 / 2) [[(1 : ℝ), 0]] [[(1 : ℝ), 0]] := by
  have hrows : ∀ pt ∈ List.zip [[(1 : ℝ), 0]] [[(1 : ℝ), 0]],
      (∀ v ∈ pt.1, 0 ≤ v ∧ v ≤ 1) ∧
        ∃ i, i < pt.1.length ∧ pt.2 = oneHot pt.1.length i := by
    intro pt hpt
    simp only [List.zip_cons_cons, List.zip_nil_right, List.mem_cons,
      List.not_mem_nil, or_false] at hpt
    subst hpt
    refine ⟨by intro v hv; simp at hv; rcases hv with rfl | rfl <;> norm_num,
      0, by norm_num, ?_⟩
    rfl
  exact (crossEntropy_lower_bound (1 / 2) (by norm_num) [[(1 : ℝ), 0]]
    [[(1 : ℝ), 0]] (by simp) (by simp) hrows).1

/-- Modelled from the spec: the moving-average update
`decay * avg + (1 − decay) * new²` used for both Adadelta accumulators. -/
def movingAvg (decay avg newv : ℝ) : ℝ :=
  decay * avg + (1 - decay) * newv ^ 2

/-- Modelled from the spec: the denominator `sqrt(E[g²] + ε)` of the
Adadelta update, after folding the current gradient into `E[g²]`. -/
noncomputable def adadeltaDenom (decay eps eg2 g : ℝ) : ℝ :=
  Real.sqrt (movingAvg decay eg2 g + eps)

/-- Modelled from the spec: one Adadelta step on a scalar parameter
(`optimizer='adadelta'` in the notebook's `model.compile`): fold `g²` into
`E[g²]`, compute `Δx = −sqrt(E[Δx²]+ε)/sqrt(E[g²]+ε) * g`, apply
`param += Δx`, then fold `Δx²` into `E[Δx²]`.  Returns
`(param', E[g²]', E[Δx²]')`. -/
noncomputable def adadeltaStep (decay eps eg2 edx2 param g : ℝ) : ℝ × ℝ × ℝ :=
  let eg2' := movingAvg decay eg2 g
  let dx := -(Real.sqrt (edx2 + eps) / adadeltaDenom decay eps eg2 g) * g
  let param' := param + dx
  let edx2' := movingAvg decay edx2 dx
  (param', eg2', edx2')

/-- **C4.** With fuzz factor `ε > 0`, decay in `[0, 1]` and a non-negative
accumulated squared-gradient average, the Adadelta denominator
`sqrt(E[g²] + ε)` is strictly positive — in particular nonzero, and
strictly positive even when `E[g²]` is exactly 0 — so the update step
never divides by zero. -/
theorem adadelta_denom_pos (decay eps eg2 g : ℝ) (hd0 : 0 ≤ decay)
    (hd1 : decay ≤ 1) (heps : 0 < eps) (heg2 : 0 ≤ eg2) :
    0 < adadeltaDenom decay eps eg2 g
    ∧ adadeltaDenom decay eps eg2 g ≠ 0
    ∧ 0 < adadeltaDenom decay eps 0 g := by
  have key : ∀ e : ℝ, 0 ≤ e → 0 < adadeltaDenom decay eps e g := by
    intro e he
    apply Real.sqrt_pos.2
    have h1 : 0 ≤ decay * e := mul_nonneg hd0 he
    have h2 : 0 ≤ (1 - decay) * g ^ 2 :=
      mul_nonneg (by linarith) (sq_nonneg g)
    unfold movingAvg
    linarith
  exact ⟨key eg2 heg2, (key eg2 heg2).ne', key 0 le_rfl⟩

/-- Witness for `adadelta_denom_pos` at the spec's default
hyperparameters `decay = 0.95`, `ε = 10⁻⁶`, with `E[g²] = 0`, `g = 0`. -/
theorem adadelta_denom_pos_witness :
    0 < adadeltaDenom (95 / 100) (1 / 1000000) 0 0 :=
  (adadelta_denom_pos (95 / 100) (1 / 1000000) 0 0 (by norm_num) (by norm_num)
    (by norm_num) le_rfl).1

/-- A layer of the notebook's `Sequential` stack, as a shape transformer;
the constructors mirror the notebook's `model.add` calls.  Modelled from
the spec for the shape/parameter rules (the layers themselves are
framework code). -/
inductive KLayer
  | conv2d (filters kh kw : ℕ)
  | activation
  | maxPool (ph pw : ℕ)
  | dropout
  | flatten
  | dense (units : ℕ)

/-- Modelled from the spec: output shape of one layer given its input
shape `[h, w, c]` (or `[n]` after flattening).  Conv2D uses `valid`
padding (spatial size `− kernel + 1`), max-pooling divides the spatial
size by the pool size, flatten takes the product of all dimensions. -/
def outShape : KLayer → List ℕ → List ℕ
  | .conv2d f kh kw, [h, w, _] => [h - kh + 1, w - kw + 1, f]
  | .maxPool ph pw, [h, w, c] => [h / ph, w / pw, c]
  | .flatten, s => [s.prod]
  | .dense u, [_] => [u]
  | _, s => s

/-- Modelled from the spec: number of trainable parameters of one layer
given its input shape: Conv2D has `(kh·kw·c + 1)` weights per filter
(kernel plus bias), Dense has `(n + 1)` weights per unit; the other
layers have none. -/
def paramCount : KLayer → List ℕ → ℕ
  | .conv2d f kh kw, [_, _, c] => (kh * kw * c + 1) * f
  | .dense u, [n] => (n + 1) * u
  | _, _ => 0

/-- Propagate an input shape through a layer stack, returning the final
shape and the total trainable-parameter count. -/
def propagate : List KLayer → List ℕ → List ℕ × ℕ
  | [], s => (s, 0)
  | l :: ls, s =>
      let r := propagate ls (outShape l s)
      (r.1, paramCount l s + r.2)

/-- The notebook's layer stack: Conv2D 32@3×3 valid → ReLU →
Conv2D 32@3×3 → ReLU → MaxPool 2×2 → Dropout 0.25 → Flatten →
Dense 128 → ReLU → Dropout 0.5 → Dense 10 → softmax. -/
def notebookStack : List KLayer :=
  [.conv2d 32 3 3, .activation, .conv2d 32 3 3, .activation, .maxPool 2 2,
   .dropout, .flatten, .dense 128, .activation, .dropout, .dense 10,
   .activation]

/-- **C9.** Propagating shapes through the notebook's stack on a
`28 × 28 × 1` input yields a Flatten output of exactly 4608 features, the
four parameterized layers have 320, 9248, 589952 and 1290 trainable
parameters, and the total is exactly 600810 (matching `model.summary()`). -/
theorem notebookStack_param_counts :
    ((notebookStack.take 7).foldl (fun s l => outShape l s) [28, 28, 1]
        = [4608])
    ∧ paramCount (.conv2d 32 3 3) [28, 28, 1] = 320
    ∧ paramCount (.conv2d 32 3 3) [26, 26, 32] = 9248
    ∧ paramCount (.dense 128) [4608] = 589952
    ∧ paramCount (.dense 10) [128] = 1290
    ∧ (propagate notebookStack [28, 28, 1]).2 = 600810
    ∧ (propagate notebookStack [28, 28, 1]).1 = [10] := by
  decide

/-- The notebook's pixel normalization
`X.astype('float32') / 255.0`, embedded as exact rational division. -/
def normalizePixel (p : ℕ) : ℚ := (p : ℚ) / 255

/-- The notebook's reshape of one flat 784-pixel sample to `28 × 28 × 1`
(`X.reshape(n, img_rows, img_cols, 1)`): rows of 28 pixels, each pixel a
singleton channel list. -/
def reshapeRows (c : ℕ) : ℕ → List ℚ → Tensor3
  | 0, _ => []
  | r + 1, l => ((l.take c).map fun v => [v]) :: reshapeRows c r (l.drop c)

/-- One sample's reshape to `28 × 28 × 1`. -/
def reshapeImage (l : List ℚ) : Tensor3 := reshapeRows 28 28 l

/-- Flatten a 3-D tensor back to the row-major list of its entries. -/
def flattenT (t : Tensor3) : List ℚ := (t.map List.flatten).flatten

lemma flatten_map_singleton (l : List ℚ) :
    (l.map fun v => ([v] : List ℚ)).flatten = l := by
  induction l with
  | nil => rfl
  | cons a t ih => simp [ih]

lemma flattenT_reshapeRows (c : ℕ) :
    ∀ (r : ℕ) (l : List ℚ), l.length = r * c →
      flattenT (reshapeRows c r l) = l
  | 0, l, h => by
      have : l = [] := List.eq_nil_of_length_eq_zero (by simpa using h)
      simp [this, reshapeRows, flattenT]
  | r + 1, l, h => by
      have hlc : c ≤ l.length := by
        rw [h, Nat.succ_mul]; omega
      have hdrop : (l.drop c).length = r * c := by
        rw [List.length_drop, h, Nat.succ_mul]; omega
      have ih := flattenT_reshapeRows c r (l.drop c) hdrop
      simp only [reshapeRows, flattenT, List.map_cons, List.flatten_cons]
      rw [flatten_map_singleton (l.take c)]
      rw [show ((reshapeRows c r (l.drop c)).map List.flatten).flatten
            = flattenT (reshapeRows c r (l.drop c)) from rfl, ih]
      exact List.take_append_drop c l

/-- **C10.** Every 8-bit pixel value `p ∈ [0, 255]` is converted to
`p / 255`, which lies in `[0, 1]`, with `p = 0` mapped exactly to `0` and
`p = 255` mapped exactly to `1`; and the reshape of a flat
`28·28 = 784`-pixel sample to `28 × 28 × 1` preserves the element count
and the values of all elements. -/
theorem preprocessing_normalize_reshape :
    (∀ p : ℕ, p ≤ 255 → 0 ≤ normalizePixel p ∧ normalizePixel p ≤ 1)
    ∧ normalizePixel 0 = 0
    ∧ normalizePixel 255 = 1
    ∧ (∀ l : List ℚ, l.length = 28 * 28 →
        flattenT (reshapeImage l) = l
          ∧ (flattenT (reshapeImage l)).length = 28 * 28) := by
  refine ⟨?_, by simp [normalizePixel], by norm_num [normalizePixel], ?_⟩
  · intro p hp
    constructor
    · exact div_nonneg (by exact_mod_cast Nat.zero_le p) (by norm_num)
    · rw [normalizePixel, div_le_one (by norm_num)]
      exact_mod_cast hp
  · intro l hl
    have h := flattenT_reshapeRows 28 28 l (by omega)
    exact ⟨h, by rw [show reshapeImage l = reshapeRows 28 28 l from rfl, h, hl]⟩

/-- Witness for `preprocessing_normalize_reshape`: pixel value 128 and the
all-zero 784-pixel sample. -/
theorem preprocessing_normalize_reshape_witness :
    (0 ≤ normalizePixel 128 ∧ normalizePixel 128 ≤ 1)
    ∧ flattenT (reshapeImage (List.replicate 784 0)) = List.replicate 784 0 := by
  refine ⟨preprocessing_normalize_reshape.1 128 (by norm_num), ?_⟩
  exact (preprocessing_normalize_reshape.2.2.2 (List.replicate 784 0)
    (by rw [List.length_replicate])).1

/-- Modelled from the spec: a layer's declared input/output shapes, as
used by the network's construction-time validation. -/
structure LayerDecl where
  inShape : List ℕ
  outShape : List ℕ
deriving DecidableEq, Repr

/-- Modelled from the spec: the error kinds of the error-handling design;
only `ShapeMismatchError` matters for construction. -/
inductive NetError
  | ShapeMismatchError
  | InvalidConfigurationError
  | NumericInstabilityError
deriving DecidableEq, Repr

/-- Every adjacent pair of layers has the first's declared output shape
equal to the second's declared input shape. -/
def adjacentCompatible : List LayerDecl → Bool
  | [] => true
  | [_] => true
  | a :: b :: rest =>
      (a.outShape == b.inShape) && adjacentCompatible (b :: rest)

/-- Modelled from the spec: network construction validates all adjacent
declared shapes eagerly and fails with `ShapeMismatchError` before any
forward pass; the construction consumes only the declarations, never an
input batch. -/
def buildNetwork (ls : List LayerDecl) : Except NetError (List LayerDecl) :=
  if adjacentCompatible ls then .ok ls else .error .ShapeMismatchError

/-- The dummy declaration used for out-of-range `getD` reads. -/
def dummyDecl : LayerDecl := ⟨[], []⟩

lemma adjacentCompatible_iff : ∀ ls : List LayerDecl,
    adjacentCompatible ls = true ↔
      ∀ i, i + 1 < ls.length →
        (ls.getD i dummyDecl).outShape = (ls.getD (i + 1) dummyDecl).inShape
  | [] => by simp [adjacentCompatible]
  | [a] => by simp [adjacentCompatible]
  | a :: b :: rest => by
      rw [show adjacentCompatible (a :: b :: rest)
            = ((a.outShape == b.inShape) && adjacentCompatible (b :: rest))
          from rfl]
      rw [Bool.and_eq_true, beq_iff_eq, adjacentCompatible_iff (b :: rest)]
      constructor
      · rintro ⟨hab, hrest⟩ i hi
        cases i with
        | zero => simpa using hab
        | succ j =>
            have hj : j + 1 < (b :: rest).length := by
              simpa using Nat.lt_of_succ_lt_succ hi
            simpa using hrest j hj
      · intro h
        refine ⟨by simpa using h 0 (by simp), fun j hj => ?_⟩
        have := h (j + 1) (by simpa using Nat.succ_lt_succ hj)
        simpa using this

/-- **C7.** Network construction fails with `ShapeMismatchError` exactly
when some adjacent pair of layers has incompatible declared output/input
shapes, and the validation is eager: `buildNetwork` is a function of the
declarations alone (no forward input is involved), it either returns the
validated network or the error immediately, and on success every adjacent
pair is compatible. -/
theorem buildNetwork_eager_validation (ls : List LayerDecl) :
    (buildNetwork ls = .error .ShapeMismatchError ↔
      ¬ ∀ i, i + 1 < ls.length →
          (ls.getD i dummyDecl).outShape = (ls.getD (i + 1) dummyDecl).inShape)
    ∧ (buildNetwork ls = .ok ls ∨
        buildNetwork ls = .error .ShapeMismatchError)
    ∧ (buildNetwork ls = .ok ls →
        ∀ i, i + 1 < ls.length →
          (ls.getD i dummyDecl).outShape = (ls.getD (i + 1) dummyDecl).inShape) := by
  refine ⟨?_, ?_, ?_⟩
  · rw [buildNetwork]
    by_cases h : adjacentCompatible ls = true
    · simp only [h, if_true]
      constructor
      · intro he
        exact absurd he (by simp)
      · intro hnot
        exact absurd ((adjacentCompatible_iff ls).1 h) hnot
    · simp only [h, if_false]
      have hnot : ¬ (∀ i, i + 1 < ls.length →
          (ls.getD i dummyDecl).outShape = (ls.getD (i + 1) dummyDecl).inShape) := by
        intro hall
        exact h ((adjacentCompatible_iff ls).2 hall)
      exact ⟨fun _ => hnot, fun _ => rfl⟩
  · rw [buildNetwork]
    by_cases h : adjacentCompatible ls = true <;> simp [h]
  · intro hok
    rw [buildNetwork] at hok
    by_cases h : adjacentCompatible ls = true
    · exact (adjacentCompatible_iff ls).1 h
    · simp [h] at hok

/-- The declared shapes of the notebook's first two convolution layers,
used as a concrete compatible network. -/
def netDecl0 : List LayerDecl :=
  [⟨[28, 28, 1], [26, 26, 32]⟩, ⟨[26, 26, 32], [24, 24, 32]⟩]

/-- Witness for `buildNetwork_eager_validation` at the two-layer
compatible declaration list `netDecl0`. -/
theorem buildNetwork_eager_validation_witness :
    buildNetwork netDecl0 = .ok netDecl0
    ∧ ∀ i, i + 1 < netDecl0.length →
        (netDecl0.getD i dummyDecl).outShape
          = (netDecl0.getD (i + 1) dummyDecl).inShape := by
  have hok : buildNetwork netDecl0 = .ok netDecl0 := rfl
  exact ⟨hok, (buildNetwork_eager_validation netDecl0).2.2 hok⟩

/-- Modelled from the spec: inverted dropout during training.  The
randomness source is a list of uniform samples `us` in `[0, 1)`, one per
unit: a unit is zeroed when its sample falls below `rate`, and surviving
units are scaled by `1 / (1 − rate)`. -/
def dropoutTrain (rate : ℚ) (us x : List ℚ) : List ℚ :=
  List.zipWith (fun u v => if u < rate then 0 else v / (1 - rate)) us x

/-- Modelled from the spec: dropout during inference is the identity. -/
def dropoutInfer (x : List ℚ) : List ℚ := x

lemma dropoutTrain_zero_rate : ∀ (us x : List ℚ),
    (∀ u ∈ us, 0 ≤ u) → us.length = x.length → dropoutTrain 0 us x = x
  | [], [], _, _ => rfl
  | [], _ :: _, _, h => by simp at h
  | _ :: _, [], _, h => by simp at h
  | u :: us, v :: x, hnn, h => by
      have hu : ¬ u < 0 := not_lt.2 (hnn u (by simp))
      have ih := dropoutTrain_zero_rate us x
        (fun w hw => hnn w (List.mem_cons_of_mem u hw)) (by simpa using h)
      simp only [dropoutTrain, List.zipWith] at ih ⊢
      rw [if_neg hu, ih]
      norm_num

/-- **C8.** Dropout with rate 0 is the identity on every input (given
samples in `[0, 1)`), during inference dropout of any rate is the
identity, and during training each surviving unit (sample not below the
rate) is scaled by `1 / (1 − rate)` while each dropped unit becomes 0. -/
theorem dropout_identity_and_scaling (rate : ℚ) (us x : List ℚ)
    (hnn : ∀ u ∈ us, 0 ≤ u) (hlen : us.length = x.length) :
    dropoutTrain 0 us x = x
    ∧ dropoutInfer x = x
    ∧ (∀ i, i < x.length →
        (dropoutTrain rate us x).getD i 0 =
          if us.getD i 0 < rate then 0 else x.getD i 0 / (1 - rate)) := by
  refine ⟨dropoutTrain_zero_rate us x hnn hlen, rfl, ?_⟩
  intro i hi
  have hiu : i < us.length := by omega
  have hizip : i < (dropoutTrain rate us x).length := by
    rw [dropoutTrain, List.length_zipWith]
    omega
  rw [List.getD_eq_getElem _ 0 hizip, List.getD_eq_getElem _ 0 hiu,
    List.getD_eq_getElem _ 0 hi]
  simp [dropoutTrain, List.getElem_zipWith]

/-- Witness for `dropout_identity_and_scaling` at rate `1/4`, samples
`[0, 1/2]`, input `[3, 5]`. -/
theorem dropout_identity_and_scaling_witness :
    dropoutTrain 0 [0, 1/2] [3, 5] = [3, 5]
    ∧ (dropoutTrain (1/4) [0, 1/2] [3, 5]).getD 1 0 = (5 : ℚ) / (1 - 1/4) := by
  have h := dropout_identity_and_scaling (1/4) [0, 1/2] [3, 5]
    (by intro u hu; rcases List.mem_cons.1 hu with rfl | hu' <;> simp_all)
    (by rfl)
  refine ⟨h.1, ?_⟩
  have := h.2.2 1 (by norm_num)
  rw [this]
  norm_num

/-- Modelled from the spec: a seedable pseudo-random source
(`np.random.seed(1337)` in the notebook fixes the generator's state; the
spec asks only that the randomness source be an explicitly passed,
seedable handle).  A linear congruential step stands in for the
generator. -/
def lcgNext (s : ℕ) : ℕ := (1103515245 * s + 12345) % 2147483648

/-- Modelled from the spec: seeded Fisher–Yates-style shuffle by repeated
draws: each step draws the next pseudo-random state, picks the index
`state % length`, emits that element and recurses on the remainder.  The
fuel argument starts at the list length. -/
def shuffleGo : ℕ → ℕ → List ℕ → List ℕ
  | 0, _, l => l
  | _ + 1, _, [] => []
  | fuel + 1, s, a :: rest =>
      let s' := lcgNext s
      let j := s' % (a :: rest).length
      (a :: rest).getD j 0 :: shuffleGo fuel s' ((a :: rest).eraseIdx j)

/-- Modelled from the spec: the shuffled index permutation of `[0, n)`
produced from a seed for one epoch. -/
def shufflePerm (seed n : ℕ) : List ℕ := shuffleGo n seed (List.range n)

/-- Modelled from the spec: the per-epoch index permutations of a whole
training run, the generator state threading from epoch to epoch. -/
def epochPerms : ℕ → ℕ → ℕ → List (List ℕ)
  | _, _, 0 => []
  | seed, n, e + 1 => shufflePerm seed n :: epochPerms (lcgNext seed) n e

lemma getD_cons_eraseIdx_perm (l : List ℕ) (i : ℕ) (hi : i < l.length) :
    (l.getD i 0 :: l.eraseIdx i).Perm l := by
  rw [List.getD_eq_getElem l 0 hi]
  exact ((List.perm_cons_erase (List.getElem_mem hi)).trans
    ((List.erase_getElem hi).cons _)).symm

lemma shuffleGo_perm : ∀ (fuel s : ℕ) (l : List ℕ),
    (shuffleGo fuel s l).Perm l
  | 0, _, l => List.Perm.refl l
  | _ + 1, _, [] => List.Perm.refl []
  | fuel + 1, s, a :: rest => by
      rw [shuffleGo]
      have hj : lcgNext s % (a :: rest).length < (a :: rest).length :=
        Nat.mod_lt _ (by simp)
      exact ((shuffleGo_perm fuel (lcgNext s)
          ((a :: rest).eraseIdx (lcgNext s % (a :: rest).length))).cons _).trans
        (getD_cons_eraseIdx_perm (a :: rest) _ hj)

/-- **C5.** Two training runs started from the same seed produce the same
shuffled index permutation in every epoch, hence any metric computed from
the per-epoch permutations is identical between the two runs; each
per-epoch shuffle is a genuine permutation of the index range; and the
notebook's seed 1337 and a different seed 42 produce different
permutations (the concrete instance of "different seeds differ with
overwhelming probability"). -/
theorem seeded_shuffle_determinism (s₁ s₂ n epochs : ℕ) (h : s₁ = s₂) :
    epochPerms s₁ n epochs = epochPerms s₂ n epochs
    ∧ (∀ metric : List (List ℕ) → ℚ,
        metric (epochPerms s₁ n epochs) = metric (epochPerms s₂ n epochs))
    ∧ (∀ seed, (shufflePerm seed n).Perm (List.range n))
    ∧ shufflePerm 1337 10 ≠ shufflePerm 42 10 := by
  subst h
  refine ⟨rfl, fun _ => rfl, fun seed => shuffleGo_perm n seed (List.range n), ?_⟩
  decide

/-- Witness for `seeded_shuffle_determinism` at seed 1337, `n = 10`,
2 epochs. -/
theorem seeded_shuffle_determinism_witness :
    epochPerms 1337 10 2 = epochPerms 1337 10 2
    ∧ (shufflePerm 1337 10).Perm (List.range 10) := by
  have h := seeded_shuffle_determinism 1337 1337 10 2 rfl
  exact ⟨h.1, h.2.2.1 1337⟩

/-- Modelled from the spec: the index of the first maximum of a list in
scan order (ties broken by first occurrence), as used by the max-pooling
backward pass. -/
def argmaxIdx : List ℚ → ℕ
  | [] => 0
  | [_] => 0
  | x :: y :: xs =>
      let j := argmaxIdx (y :: xs)
      if x < (y :: xs).getD j 0 then j + 1 else 0

lemma argmaxIdx_lt_length : ∀ l : List ℚ, l ≠ [] → argmaxIdx l < l.length
  | [], h => absurd rfl h
  | [_], _ => by simp [argmaxIdx]
  | x :: y :: xs, _ => by
      rw [argmaxIdx]
      split
      · have := argmaxIdx_lt_length (y :: xs) (by simp)
        simpa using Nat.succ_lt_succ this
      · simp

lemma argmaxIdx_attains_max : ∀ (l : List ℚ) (i : ℕ), i < l.length →
    l.getD i 0 ≤ l.getD (argmaxIdx l) 0
  | [], _, h => by simp at h
  | [_], i, h => by
      have hi0 : i = 0 := by simpa using h
      subst hi0
      simp [argmaxIdx]
  | x :: y :: xs, i, h => by
      rw [argmaxIdx]
      split
      case isTrue hlt =>
        cases i with
        | zero => simpa using hlt.le
        | succ k =>
            have hk : k < (y :: xs).length := by simpa using h
            simpa using argmaxIdx_attains_max (y :: xs) k hk
      case isFalse hge =>
        cases i with
        | zero => simp
        | succ k =>
            have hk : k < (y :: xs).length := by simpa using h
            have h1 := argmaxIdx_attains_max (y :: xs) k hk
            have h2 : (y :: xs).getD (argmaxIdx (y :: xs)) 0 ≤ x := not_lt.1 hge
            simpa using h1.trans h2

lemma argmaxIdx_first_occurrence : ∀ (l : List ℚ) (i : ℕ), i < argmaxIdx l →
    l.getD i 0 < l.getD (argmaxIdx l) 0
  | [], i, h => by simp [argmaxIdx] at h
  | [_], i, h => by simp [argmaxIdx] at h
  | x :: y :: xs, i, h => by
      rw [argmaxIdx] at h ⊢
      split at h
      case isTrue hlt =>
        rw [if_pos hlt]
        cases i with
        | zero => simpa using hlt
        | succ k =>
            have hk : k < argmaxIdx (y :: xs) := Nat.lt_of_succ_lt_succ h
            simpa using argmaxIdx_first_occurrence (y :: xs) k hk
      case isFalse => omega

/-- Modelled from the spec: the backward pass of max-pooling on one pool
window routes the incoming output gradient `g` to the position that
attained the window maximum (first occurrence in row-major scan order)
and writes zero everywhere else. -/
def maxPoolBackwardWindow (win : List (List ℚ)) (g : ℚ) : List (List ℚ) :=
  let c := (win.getD 0 []).length
  let p := argmaxIdx win.flatten
  (List.range win.length).map fun i =>
    (List.range c).map fun j => if i * c + j = p then g else 0

lemma getD_range_map {β : Type} (f : ℕ → β) (n i : ℕ) (d : β) (h : i < n) :
    ((List.range n).map f).getD i d = f i := by
  rw [List.getD_eq_getElem _ d (by simpa using h)]
  simp

lemma flatten_length_of_rect (c : ℕ) : ∀ (win : List (List ℚ)),
    (∀ row ∈ win, row.length = c) → win.flatten.length = win.length * c
  | [], _ => by simp
  | row :: rest, hrect => by
      have hrow : row.length = c := hrect row (by simp)
      have ih := flatten_length_of_rect c rest
        (fun r hr => hrect r (List.mem_cons_of_mem row hr))
      simp [List.flatten_cons, hrow, ih, Nat.succ_mul, Nat.add_comm]

lemma flatten_getD_of_rect (c : ℕ) : ∀ (win : List (List ℚ)) (i j : ℕ),
    (∀ row ∈ win, row.length = c) → i < win.length → j < c →
      win.flatten.getD (i * c + j) 0 = (win.getD i []).getD j 0
  | [], _, _, _, hi, _ => by simp at hi
  | row :: rest, 0, j, hrect, _, hj => by
      have hrow : row.length = c := hrect row (by simp)
      simp only [List.flatten_cons, Nat.zero_mul, Nat.zero_add]
      rw [List.getD_append _ _ _ _ (by rw [hrow]; exact hj)]
      simp
  | row :: rest, i + 1, j, hrect, hi, hj => by
      have hrow : row.length = c := hrect row (by simp)
      have hi' : i < rest.length := by simpa using hi
      have ih := flatten_getD_of_rect c rest i j
        (fun r hr => hrect r (List.mem_cons_of_mem row hr)) hi' hj
      simp only [List.flatten_cons]
      rw [show (i + 1) * c + j = row.length + (i * c + j) by
        rw [hrow]; ring]
      rw [List.getD_append_right _ _ _ _ (Nat.le_add_right _ _)]
      simpa using ih

/-- **C6.** For every rectangular pool window, the max-pool backward pass
preserves the window shape, writes the incoming gradient `g` exactly at
the scan-order-first position attaining the window maximum and zero at
every other position, the routed position attains the maximum of the
window, every position strictly earlier in scan order is strictly below
that maximum (first-occurrence tie-breaking); concretely, for the window
`[[1, 3], [2, 0]]` with output gradient 5 the input gradient is
`[[0, 5], [0, 0]]`. -/
theorem maxpool_backward_routes_argmax (win : List (List ℚ)) (g : ℚ) (c : ℕ)
    (hc : c = (win.getD 0 []).length) (hcpos : 0 < c) (hne : win ≠ [])
    (hrect : ∀ row ∈ win, row.length = c) :
    ((maxPoolBackwardWindow win g).length = win.length
      ∧ ∀ row ∈ maxPoolBackwardWindow win g, row.length = c)
    ∧ (((maxPoolBackwardWindow win g).getD (argmaxIdx win.flatten / c) []).getD
        (argmaxIdx win.flatten % c) 0 = g)
    ∧ (∀ i j, i < win.length → j < c →
        ¬(i = argmaxIdx win.flatten / c ∧ j = argmaxIdx win.flatten % c) →
        ((maxPoolBackwardWindow win g).getD i []).getD j 0 = 0)
    ∧ (∀ i j, i < win.length → j < c →
        (win.getD i []).getD j 0 ≤
          (win.getD (argmaxIdx win.flatten / c) []).getD
            (argmaxIdx win.flatten % c) 0)
    ∧ (∀ i j, i < win.length → j < c → i * c + j < argmaxIdx win.flatten →
        (win.getD i []).getD j 0 <
          (win.getD (argmaxIdx win.flatten / c) []).getD
            (argmaxIdx win.flatten % c) 0)
    ∧ maxPoolBackwardWindow [[1, 3], [2, 0]] 5 = [[0, 5], [0, 0]] := by
  have hflne : win.flatten ≠ [] := by
    have := flatten_length_of_rect c win hrect
    intro hnil
    rw [hnil] at this
    have hlp : 0 < win.length := List.length_pos.2 hne
    simp only [List.length_nil] at this
    have : 0 < win.length * c := Nat.mul_pos hlp hcpos
    omega
  set p := argmaxIdx win.flatten with hp
  have hplt : p < win.length * c := by
    have h1 := argmaxIdx_lt_length win.flatten hflne
    rwa [flatten_length_of_rect c win hrect] at h1
  have hpi : p / c < win.length := Nat.div_lt_of_lt_mul (by rwa [Nat.mul_comm])
  have hpj : p % c < c := Nat.mod_lt _ hcpos
  have hpdm : p / c * c + p % c = p := by
    rw [Nat.mul_comm]
    exact Nat.div_add_mod p c
  have houter : ∀ i, i < win.length →
      (maxPoolBackwardWindow win g).getD i []
        = (List.range c).map fun j => if i * c + j = p then g else 0 := by
    intro i hi
    rw [maxPoolBackwardWindow]
    simp only [← hc, ← hp]
    exact getD_range_map _ _ _ _ hi
  have hinner : ∀ i j, i < win.length → j < c →
      ((maxPoolBackwardWindow win g).getD i []).getD j 0
        = if i * c + j = p then g else 0 := by
    intro i j hi hj
    rw [houter i hi]
    exact getD_range_map _ _ _ _ hj
  refine ⟨⟨?_, ?_⟩, ?_, ?_, ?_, ?_, ?_⟩
  · rw [maxPoolBackwardWindow]
    simp
  · intro row hrow
    rw [maxPoolBackwardWindow] at hrow
    simp only [List.mem_map, List.mem_range] at hrow
    obtain ⟨i, -, rfl⟩ := hrow
    simp [hc]
  · rw [hinner _ _ hpi hpj, if_pos hpdm]
  · intro i j hi hj hne'
    rw [hinner i j hi hj, if_neg]
    intro heq
    apply hne'
    have hi' : i = p / c := by
      have : p / c = i + j / c := by
        rw [← heq, Nat.mul_comm, Nat.mul_add_div hcpos]
      rw [this, Nat.div_eq_of_lt hj, Nat.add_zero]
    have hj' : j = p % c := by
      have : p % c = j % c := by
        rw [← heq, Nat.mul_comm, Nat.mul_add_mod]
      rw [this, Nat.mod_eq_of_lt hj]
    exact ⟨hi', hj'⟩
  · intro i j hi hj
    have hij : i * c + j < win.flatten.length := by
      rw [flatten_length_of_rect c win hrect]
      calc i * c + j < i * c + c := by omega
        _ = (i + 1) * c := by ring
        _ ≤ win.length * c := Nat.mul_le_mul_right c hi
    rw [← flatten_getD_of_rect c win i j hrect hi hj,
      ← flatten_getD_of_rect c win (p / c) (p % c) hrect hpi hpj, hpdm]
    exact argmaxIdx_attains_max win.flatten (i * c + j) hij
  · intro i j hi hj hlt
    rw [← flatten_getD_of_rect c win i j hrect hi hj,
      ← flatten_getD_of_rect c win (p / c) (p % c) hrect hpi hpj, hpdm]
    exact argmaxIdx_first_occurrence win.flatten (i * c + j) hlt
  · decide

/-- Witness for `maxpool_backward_routes_argmax` at the claim's concrete
window `[[1, 3], [2, 0]]` with gradient 5 and `c = 2`. -/
theorem maxpool_backward_routes_argmax_witness :
    maxPoolBackwardWindow [[1, 3], [2, 0]] 5 = [[0, 5], [0, 0]]
    ∧ (maxPoolBackwardWindow [[(1 : ℚ), 3], [2, 0]] 5).length = 2 := by
  have h := maxpool_backward_routes_argmax [[(1 : ℚ), 3], [2, 0]] 5 2
    rfl (by norm_num) (by simp)
    (by intro row hrow; rcases List.mem_cons.1 hrow with rfl | hrow' <;>
        simp_all)
  exact ⟨h.2.2.2.2.2, by rw [h.1.1]; rfl⟩

end MnistCnn
